import Mathlib

/-!
Shallow embedding of the bounded LRU cache with eviction callback
(pkg/cache/lru/lru_with_eviction.go) and of the BPF metrics collector
(pkg/profiler/cpu/metrics.go).

The recency list (container/list) is modelled as a Lean list of elements,
front = most recently used.  A list element carries a node identity (a
natural number, modelling the Element pointer) together with the stored
key/value pair; the key index (the Go map from key to element pointer)
is modelled as an association list from key to node identity.  The
prometheus counters registered for the cache (hits, misses, evictions)
are modelled as natural-number fields; eviction-callback invocations are
recorded in an append-only log.
-/

namespace LruSpec

/-- Element of the recency list: node identity plus the evictable
key/value pair stored in its Value field. -/
abbrev Elem (K V : Type) := Nat × K × V

/-- Model of LRUWithEvict.  The order field is the evictList (front =
most recently used), items is the key index, nextId allocates fresh node
identities, hits/misses/evictions model the registered counters, evLog
records the eviction-callback invocations (appended only when a callback
was supplied, hasCallback), and closerErr models the result the
registered closer (the metrics unregister function) reports when Close
invokes it. -/
structure Cache (K V : Type) where
  maxEntries : Nat
  hasCallback : Bool
  closerErr : Option String
  order : List (Elem K V)
  items : List (K × Nat)
  nextId : Nat
  hits : Nat
  misses : Nat
  evictions : Nat
  evLog : List (K × V)
deriving DecidableEq

variable {K V : Type} [DecidableEq K]

/-- Lookup of a key in the key index (the Go map access items[key]),
returning the node identity when present. -/
def findItem (c : Cache K V) (k : K) : Option Nat :=
  (c.items.find? (fun kv => decide (kv.1 = k))).map (fun kv => kv.2)

/-- Lookup of the element with a given node identity in the recency
list (dereferencing the Element pointer). -/
def findElem (c : Cache K V) (nid : Nat) : Option (Elem K V) :=
  c.order.find? (fun e => decide (e.1 = nid))

/-- Model of evictList.MoveToFront: unlink the element with the given
node identity and relink it at the front; no change when absent. -/
def moveToFront (nid : Nat) (l : List (Elem K V)) : List (Elem K V) :=
  match l.find? (fun e => decide (e.1 = nid)) with
  | some e => e :: l.eraseP (fun x => decide (x.1 = nid))
  | none => l

/-- Model of the assignment of a fresh evictable pair to the Value field
of the element with the given node identity. -/
def setValue (nid : Nat) (k : K) (v : V) (l : List (Elem K V)) : List (Elem K V) :=
  l.map (fun e => if e.1 = nid then (nid, k, v) else e)

/-- Model of removeElement: remove the element from the recency list,
delete its key from the key index, invoke the eviction callback when one
was supplied, and increment the eviction counter. -/
def removeElement (nid : Nat) (c : Cache K V) : Cache K V :=
  match c.order.find? (fun e => decide (e.1 = nid)) with
  | none => c
  | some e =>
    { c with
      order := c.order.eraseP (fun x => decide (x.1 = nid))
      items := c.items.eraseP (fun kv => decide (kv.1 = e.2.1))
      evLog := if c.hasCallback then c.evLog ++ [(e.2.1, e.2.2)] else c.evLog
      evictions := c.evictions + 1 }

/-- Model of removeOldest: remove the element at the back of the recency
list when the list is non-empty. -/
def removeOldest (c : Cache K V) : Cache K V :=
  match c.order.getLast? with
  | none => c
  | some e => removeElement e.1 c

/-- Model of Add: overwrite and promote when the key exists, otherwise
push a fresh element at the front and evict the oldest entry when a
non-zero capacity is exceeded. -/
def Add (k : K) (v : V) (c : Cache K V) : Cache K V :=
  match findItem c k with
  | some nid =>
    { c with order := setValue nid k v (moveToFront nid c.order) }
  | none =>
    let nid := c.nextId
    let c1 := { c with
      order := (nid, k, v) :: c.order
      items := (k, nid) :: c.items
      nextId := nid + 1 }
    if c1.maxEntries ≠ 0 ∧ c1.order.length > c1.maxEntries then removeOldest c1
    else c1

/-- Model of Get: on a hit, promote the entry and bump the hit counter,
returning its value; on a miss, bump the miss counter and return the
zero value of the value type. -/
def Get [Inhabited V] (k : K) (c : Cache K V) : (V × Bool) × Cache K V :=
  match findItem c k with
  | some nid =>
    let v := match findElem c nid with
      | some e => e.2.2
      | none => default
    ((v, true), { c with order := moveToFront nid c.order, hits := c.hits + 1 })
  | none => ((default, false), { c with misses := c.misses + 1 })

/-- Model of Peek: the lookup of Get without promoting the entry and
without touching any counter. -/
def Peek [Inhabited V] (k : K) (c : Cache K V) : (V × Bool) × Cache K V :=
  match findItem c k with
  | some nid =>
    let v := match findElem c nid with
      | some e => e.2.2
      | none => default
    ((v, true), c)
  | none => ((default, false), c)

/-- Model of Remove: delete the entry through removeElement when the key
is present, otherwise do nothing. -/
def Remove (k : K) (c : Cache K V) : Cache K V :=
  match findItem c k with
  | some nid => removeElement nid c
  | none => c

/-- Eviction-callback invocations performed by Purge: one per key-index
entry, paired with the value stored in that entry's element. -/
def purgeInvocations (c : Cache K V) : List (K × V) :=
  c.items.filterMap (fun kv => (findElem c kv.2).map (fun e => (kv.1, e.2.2)))

/-- Model of Purge: invoke the callback for every key-index entry,
delete every key, and re-initialise the recency list.  No counter is
touched. -/
def Purge (c : Cache K V) : Cache K V :=
  { c with
    items := []
    order := []
    evLog := if c.hasCallback then c.evLog ++ purgeInvocations c else c.evLog }

/-- Model of Close: purge, then run the registered closer and return its
result (the closer is the metrics unregister function installed by
NewWithEvict; its outcome is the closerErr field). -/
def Close (c : Cache K V) : Option String × Cache K V :=
  let c1 := Purge c
  (c1.closerErr, c1)

/-- Model of NewWithEvict: a fresh cache with the given capacity (zero
means no limit).  The closerErr argument models the outcome the
registered metrics closer will report when invoked (modelled from the
spec: releasing the registered named counters may fail and Close
propagates that failure); hasCallback models whether onEvicted is
non-nil. -/
def NewWithEvict (closerErr : Option String) (maxEntries : Nat) (hasCallback : Bool) :
    Cache K V :=
  { maxEntries := maxEntries
    hasCallback := hasCallback
    closerErr := closerErr
    order := []
    items := []
    nextId := 0
    hits := 0
    misses := 0
    evictions := 0
    evLog := [] }

/-- One public cache operation. -/
inductive Op (K V : Type) where
  | add (k : K) (v : V)
  | get (k : K)
  | peek (k : K)
  | remove (k : K)
  | purge
  | close

/-- Apply one public operation to a cache, forgetting returned values. -/
def applyOp [Inhabited V] (c : Cache K V) (op : Op K V) : Cache K V :=
  match op with
  | Op.add k v => Add k v c
  | Op.get k => (Get k c).2
  | Op.peek k => (Peek k c).2
  | Op.remove k => Remove k c
  | Op.purge => Purge c
  | Op.close => (Close c).2

/-- Apply a sequence of public operations from left to right. -/
def applyOps [Inhabited V] (c : Cache K V) (ops : List (Op K V)) : Cache K V :=
  ops.foldl applyOp c

/-- Projection of a recency-list element to its (key, node identity)
pair. -/
def keyId (e : Elem K V) : K × Nat := (e.2.1, e.1)

/-- Structural well-formedness: node identities in the recency list are
distinct, keys in the key index are distinct, the key index holds
exactly the (key, identity) pairs of the recency list, and every stored
identity is below the allocation counter. -/
def WF (c : Cache K V) : Prop :=
  (c.order.map (fun e => e.1)).Nodup ∧
  (c.items.map (fun kv => kv.1)).Nodup ∧
  c.items.Perm (c.order.map keyId) ∧
  ∀ i ∈ c.order.map (fun e => e.1), i < c.nextId

end LruSpec

namespace CpuMetrics

/-- Native unwinder statistics record, field for field as read by
readCounters and consumed in collectUnwinderStatistics (counts modelled
as natural numbers). -/
structure unwinderStats where
  Total : Nat
  SuccessDwarf : Nat
  ErrorTruncated : Nat
  ErrorUnsupportedExpression : Nat
  ErrorFramePointerAction : Nat
  ErrorUnsupportedCfaRegister : Nat
  ErrorCatchall : Nat
  ErrorShouldNeverHappen : Nat
  ErrorPcNotCovered : Nat
  ErrorUnsupportedJit : Nat
deriving DecidableEq

/-- Zero value of the statistics record (the Go composite literal with
all fields zero). -/
def zeroStats : unwinderStats :=
  { Total := 0, SuccessDwarf := 0, ErrorTruncated := 0,
    ErrorUnsupportedExpression := 0, ErrorFramePointerAction := 0,
    ErrorUnsupportedCfaRegister := 0, ErrorCatchall := 0,
    ErrorShouldNeverHappen := 0, ErrorPcNotCovered := 0,
    ErrorUnsupportedJit := 0 }

/-- One emitted const measurement: descriptor name, value (modelled as
a natural number) and label value. -/
structure Metric where
  desc : String
  value : Nat
  lbl : String
deriving DecidableEq

/-- Per-map figures as gathered by getBPFMetrics (sizes modelled as
natural numbers). -/
structure bpfMetrics where
  mapName : String
  bpfMapKeySize : Nat
  bpfMapValueSize : Nat
  bpfMaxEntry : Nat
  bpfMemlock : Nat
deriving DecidableEq

/-- Model of bpfMetricsCollector for one collection cycle.  bpfMaps
models the list returned by getBPFMetrics and readCountersResult the
outcome of readCounters; both are reads of external state (BPF maps)
performed by code outside this collector. -/
structure bpfMetricsCollector where
  bpfMaps : List bpfMetrics
  readCountersResult : Except String unwinderStats

/-- Model of getUnwinderStats: on a failed external read, log an error
and fall back to the zero-value statistics record; on success return
the read record.  The second component is the list of emitted log
lines. -/
def getUnwinderStats (c : bpfMetricsCollector) : unwinderStats × List String :=
  match c.readCountersResult with
  | Except.error e => (zeroStats, ["readPerCpuCounter failed: " ++ e])
  | Except.ok s => (s, [])

/-- Measurements sent by collectUnwinderStatistics for a given
statistics record, in emission order. -/
def unwinderMetricsFor (s : unwinderStats) : List Metric :=
  [ { desc := "parca_agent_native_unwinder_samples_total", value := s.Total, lbl := "dwarf" },
    { desc := "parca_agent_native_unwinder_success_total", value := s.SuccessDwarf, lbl := "dwarf" },
    { desc := "parca_agent_native_unwinder_error_total", value := s.ErrorTruncated, lbl := "truncated" },
    { desc := "parca_agent_native_unwinder_error_total", value := s.ErrorUnsupportedExpression, lbl := "unsupported_expression" },
    { desc := "parca_agent_native_unwinder_error_total", value := s.ErrorFramePointerAction, lbl := "frame_pointer_action" },
    { desc := "parca_agent_native_unwinder_error_total", value := s.ErrorUnsupportedCfaRegister, lbl := "unsupported_cfa_register" },
    { desc := "parca_agent_native_unwinder_error_total", value := s.ErrorCatchall, lbl := "catchall" },
    { desc := "parca_agent_native_unwinder_error_total", value := s.ErrorShouldNeverHappen, lbl := "should_never_happen" },
    { desc := "parca_agent_native_unwinder_error_total", value := s.ErrorPcNotCovered, lbl := "pc_not_covered" },
    { desc := "parca_agent_native_unwinder_error_total", value := s.ErrorUnsupportedJit, lbl := "unsupported_jit" } ]

/-- Model of collectUnwinderStatistics: read the statistics through
getUnwinderStats and emit one measurement per field. -/
def collectUnwinderStatistics (c : bpfMetricsCollector) : List Metric × List String :=
  let su := getUnwinderStats c
  (unwinderMetricsFor su.1, su.2)

/-- Measurements sent for one per-map record inside the Collect loop. -/
def bpfMapMetricsFor (b : bpfMetrics) : List Metric :=
  [ { desc := "parca_agent_bpf_map_memlock", value := b.bpfMemlock, lbl := b.mapName },
    { desc := "parca_agent_bpf_map_key_size", value := b.bpfMapKeySize, lbl := b.mapName },
    { desc := "parca_agent_bpf_map_value_size", value := b.bpfMapValueSize, lbl := b.mapName },
    { desc := "parca_agent_bpf_map_max_entries", value := b.bpfMaxEntry, lbl := b.mapName } ]

/-- Model of Collect: per-map measurements for every record of
getBPFMetrics, followed by the native unwinder statistics.  Returns the
emitted measurements together with the emitted log lines; the function
is total, mirroring a Go method that cannot return an error to the
registry. -/
def Collect (c : bpfMetricsCollector) : List Metric × List String :=
  let uw := collectUnwinderStatistics c
  (((c.bpfMaps.map bpfMapMetricsFor).flatten) ++ uw.1, uw.2)

/-- Descriptor names of the native-unwinder measurement family. -/
def unwinderDescNames : List String :=
  [ "parca_agent_native_unwinder_samples_total",
    "parca_agent_native_unwinder_success_total",
    "parca_agent_native_unwinder_error_total" ]

end CpuMetrics

namespace LruSpec

set_option linter.unusedSectionVars false

variable {K V : Type} [DecidableEq K]

instance decidableWF (c : Cache K V) : Decidable (WF c) := by
  unfold WF
  exact inferInstance

/-- The unique satisfier of a predicate among the members of a list is
what find? returns. -/
theorem find?_eq_some_unique {α : Type} {p : α → Bool} {x : α} {l : List α}
    (hx : x ∈ l) (hpx : p x = true) (hu : ∀ y ∈ l, p y = true → y = x) :
    l.find? p = some x := by
  induction l with
  | nil => cases hx
  | cons a t ih =>
    by_cases hpa : p a = true
    · have ha : a = x := hu a (List.mem_cons_self a t) hpa
      rw [List.find?_cons_of_pos t hpa, ha]
    · have hxt : x ∈ t := by
        cases List.mem_cons.mp hx with
        | inl h => exact absurd (h ▸ hpx) hpa
        | inr h => exact h
      rw [List.find?_cons_of_neg t hpa]
      exact ih hxt (fun y hy hpy => hu y (List.mem_cons_of_mem a hy) hpy)

/-- After erasing the unique satisfier of a predicate from a
duplicate-free list, no remaining member satisfies the predicate. -/
theorem eraseP_unique_none_left {α : Type} {p : α → Bool} {x : α} {l : List α}
    (hu : ∀ y ∈ l, p y = true → y = x) (hnd : l.Nodup) :
    ∀ y ∈ l.eraseP p, p y = false := by
  induction l with
  | nil => intro y hy; cases hy
  | cons a t ih =>
    by_cases hpa : p a = true
    · have ha : a = x := hu a (List.mem_cons_self a t) hpa
      rw [List.eraseP_cons_of_pos hpa]
      intro y hy
      cases hpy : p y with
      | false => rfl
      | true =>
        exfalso
        have hyx : y = x := hu y (List.mem_cons_of_mem a hy) hpy
        rw [hyx, ← ha] at hy
        exact (List.nodup_cons.mp hnd).1 hy
    · rw [List.eraseP_cons_of_neg hpa]
      intro y hy
      cases List.mem_cons.mp hy with
      | inl h2 =>
        cases hpy : p y with
        | false => rfl
        | true => exact absurd (h2 ▸ hpy) hpa
      | inr h2 =>
        exact ih (fun z hz hpz => hu z (List.mem_cons_of_mem a hz) hpz)
          (List.nodup_cons.mp hnd).2 y h2

/-- A list is a permutation of its find? result consed onto the erasure
by the same predicate. -/
theorem perm_cons_eraseP {α : Type} {p : α → Bool} {x : α} {l : List α}
    (h : l.find? p = some x) : l.Perm (x :: l.eraseP p) := by
  induction l with
  | nil => cases h
  | cons a t ih =>
    by_cases hpa : p a = true
    · rw [List.find?_cons_of_pos t hpa] at h
      cases h
      rw [List.eraseP_cons_of_pos hpa]
    · rw [List.find?_cons_of_neg t hpa] at h
      rw [List.eraseP_cons_of_neg hpa]
      exact ((ih h).cons a).trans (List.Perm.swap x a _)

/-- Two permuted lists each holding the same unique satisfier of their
respective predicates stay permuted after erasing by them. -/
theorem perm_eraseP_eraseP {α : Type} {p q : α → Bool} {x : α} {l₁ l₂ : List α}
    (h : l₁.Perm l₂) (hpx : p x = true) (hqx : q x = true)
    (hup : ∀ y ∈ l₁, p y = true → y = x) (huq : ∀ y ∈ l₂, q y = true → y = x) :
    (l₁.eraseP p).Perm (l₂.eraseP q) := by
  by_cases hx : x ∈ l₁
  · have hx2 : x ∈ l₂ := h.mem_iff.mp hx
    have hf1 : l₁.find? p = some x := find?_eq_some_unique hx hpx hup
    have hf2 : l₂.find? q = some x := find?_eq_some_unique hx2 hqx huq
    exact ((perm_cons_eraseP hf1).symm.trans (h.trans (perm_cons_eraseP hf2))).cons_inv
  · have hx2 : x ∉ l₂ := fun hc => hx (h.mem_iff.mpr hc)
    have e1 : l₁.eraseP p = l₁ :=
      List.eraseP_of_forall_not (fun y hy hpy => hx (hup y hy hpy ▸ hy))
    have e2 : l₂.eraseP q = l₂ :=
      List.eraseP_of_forall_not (fun y hy hqy => hx2 (huq y hy hqy ▸ hy))
    rw [e1, e2]
    exact h

/-- moveToFront permutes the recency list. -/
theorem moveToFront_perm (nid : Nat) (l : List (Elem K V)) :
    (moveToFront nid l).Perm l := by
  unfold moveToFront
  cases h : l.find? (fun e => decide (e.1 = nid)) with
  | none => exact List.Perm.refl l
  | some e => exact (perm_cons_eraseP h).symm

/-- setValue does not change the node identities. -/
theorem setValue_map_fst (nid : Nat) (k : K) (v : V) (l : List (Elem K V)) :
    (setValue nid k v l).map (fun e => e.1) = l.map (fun e => e.1) := by
  unfold setValue
  rw [List.map_map]
  apply List.map_congr_left
  intro e _
  by_cases h : e.1 = nid
  · simp [Function.comp, h]
  · simp [Function.comp, h]

/-- setValue keeps the (key, identity) pairs when the new key agrees
with the key already stored for the rewritten identity. -/
theorem setValue_map_keyId (nid : Nat) (k : K) (v : V) (l : List (Elem K V))
    (hk : ∀ e ∈ l, e.1 = nid → e.2.1 = k) :
    (setValue nid k v l).map keyId = l.map keyId := by
  unfold setValue
  rw [List.map_map]
  apply List.map_congr_left
  intro e he
  by_cases h : e.1 = nid
  · have hke := hk e he h
    simp [Function.comp, keyId, h, hke]
  · simp [Function.comp, keyId, h]

/-- setValue preserves the length of the list. -/
theorem setValue_length (nid : Nat) (k : K) (v : V) (l : List (Elem K V)) :
    (setValue nid k v l).length = l.length := by
  simp [setValue]

/-- Under distinct node identities, any member satisfying the identity
predicate of a member e is e itself. -/
theorem elem_unique_of_nodup {l : List (Elem K V)}
    (hnd : (l.map (fun e => e.1)).Nodup) {e : Elem K V} (he : e ∈ l) :
    ∀ y ∈ l, (fun x => decide (x.1 = e.1)) y = true → y = e := by
  intro y hy hpy
  exact List.inj_on_of_nodup_map hnd hy he (of_decide_eq_true hpy)

/-- Under distinct keys, any key-index entry sharing the key of an
entry kv is kv itself. -/
theorem item_unique_of_nodup {its : List (K × Nat)}
    (hnd : (its.map (fun kv => kv.1)).Nodup) {kv : K × Nat} (h : kv ∈ its) :
    ∀ y ∈ its, (fun x => decide (x.1 = kv.1)) y = true → y = kv := by
  intro y hy hpy
  exact List.inj_on_of_nodup_map hnd hy h (of_decide_eq_true hpy)

/-- A successful key lookup exhibits its key-index entry. -/
theorem findItem_eq_some_mem {c : Cache K V} {k : K} {nid : Nat}
    (h : findItem c k = some nid) : (k, nid) ∈ c.items := by
  unfold findItem at h
  cases hf : c.items.find? (fun kv => decide (kv.1 = k)) with
  | none => rw [hf] at h; cases h
  | some kv =>
    rw [hf] at h
    have hp := List.find?_some hf
    have h1 : kv.1 = k := of_decide_eq_true hp
    have h2 : kv ∈ c.items := List.mem_of_find?_eq_some hf
    have h3 : kv.2 = nid := by simpa using h
    have h4 : kv = (k, nid) := by
      cases kv
      simp only at h1 h3
      rw [h1, h3]
    rw [← h4]
    exact h2

/-- A failed key lookup means no key-index entry carries the key. -/
theorem findItem_eq_none_keys {c : Cache K V} {k : K} (h : findItem c k = none) :
    ∀ kv ∈ c.items, kv.1 ≠ k := by
  unfold findItem at h
  have h1 : c.items.find? (fun kv => decide (kv.1 = k)) = none :=
    Option.map_eq_none'.mp h
  intro kv hkv hk
  exact absurd (decide_eq_true hk) (List.find?_eq_none.mp h1 kv hkv)

end LruSpec

namespace LruSpec

set_option linter.unusedSectionVars false

variable {K V : Type} [DecidableEq K]

/-- In a well-formed cache, a successful key lookup pins down a unique
recency-list element carrying that key and identity. -/
theorem wf_elem_of_findItem {c : Cache K V} (hwf : WF c) {k : K} {nid : Nat}
    (h : findItem c k = some nid) :
    ∃ v, (nid, k, v) ∈ c.order ∧
      c.order.find? (fun e => decide (e.1 = nid)) = some (nid, k, v) := by
  obtain ⟨hids, hkeys, hperm, hfresh⟩ := hwf
  have hmem : (k, nid) ∈ c.items := findItem_eq_some_mem h
  have hmem2 : (k, nid) ∈ c.order.map keyId := hperm.mem_iff.mp hmem
  obtain ⟨e, he, hke⟩ := List.mem_map.mp hmem2
  obtain ⟨i, k2, v⟩ := e
  have h1 : k2 = k := congrArg Prod.fst hke
  have h2 : i = nid := congrArg Prod.snd hke
  subst h1
  subst h2
  refine ⟨v, he, ?_⟩
  exact find?_eq_some_unique he (by simp) (elem_unique_of_nodup hids he)

/-- Well-formedness transfers along a permutation of the recency list
when the key index and allocation counter are unchanged. -/
theorem wf_congr {c c2 : Cache K V} (hwf : WF c) (ho : c2.order.Perm c.order)
    (hi : c2.items = c.items) (hn : c2.nextId = c.nextId) : WF c2 := by
  obtain ⟨hids, hkeys, hperm, hfresh⟩ := hwf
  refine ⟨?_, ?_, ?_, ?_⟩
  · exact ((ho.map (fun e => e.1)).symm).nodup hids
  · rw [hi]; exact hkeys
  · rw [hi]; exact hperm.trans ((ho.map keyId).symm)
  · intro i hi2
    rw [hn]
    exact hfresh i ((ho.map (fun e => e.1)).mem_iff.mp hi2)

/-- removeElement preserves well-formedness. -/
theorem wf_removeElement {c : Cache K V} (hwf : WF c) (nid : Nat) :
    WF (removeElement nid c) := by
  cases hf : c.order.find? (fun e => decide (e.1 = nid)) with
  | none => simp only [removeElement, hf]; exact hwf
  | some e =>
    simp only [removeElement, hf]
    obtain ⟨hids, hkeys, hperm, hfresh⟩ := hwf
    have hmeme : e ∈ c.order := List.mem_of_find?_eq_some hf
    have hpe0 := List.find?_some hf
    have hpe : e.1 = nid := of_decide_eq_true hpe0
    have hkide : keyId e ∈ c.order.map keyId := List.mem_map_of_mem keyId hmeme
    have hmemi : (e.2.1, e.1) ∈ c.items := hperm.mem_iff.mpr hkide
    have huq : ∀ y ∈ c.order.map keyId,
        (fun kv => decide (kv.2 = nid)) y = true → y = (e.2.1, e.1) := by
      intro y hy hpy
      obtain ⟨z, hz, hzy⟩ := List.mem_map.mp hy
      have hy2 : y.2 = nid := of_decide_eq_true hpy
      rw [← hzy] at hy2
      have hze : z = e := List.inj_on_of_nodup_map hids hz hmeme (by rw [hpe]; exact hy2)
      rw [← hzy, hze]
      rfl
    refine ⟨?_, ?_, ?_, ?_⟩
    · exact List.Nodup.sublist
        (List.Sublist.map (fun x => x.1) (List.eraseP_sublist c.order)) hids
    · exact List.Nodup.sublist
        (List.Sublist.map (fun kv => kv.1) (List.eraseP_sublist c.items)) hkeys
    · have h2 : (c.order.eraseP (fun x => decide (x.1 = nid))).map keyId
          = (c.order.map keyId).eraseP (fun kv => decide (kv.2 = nid)) := by
        rw [List.eraseP_map]
        rfl
      rw [h2]
      exact perm_eraseP_eraseP hperm (by simp) (by simp [hpe])
        (item_unique_of_nodup hkeys hmemi) huq
    · intro i hi2
      obtain ⟨z, hz, hzi⟩ := List.mem_map.mp hi2
      exact hfresh i (List.mem_map.mpr ⟨z, List.mem_of_mem_eraseP hz, hzi⟩)

/-- removeOldest preserves well-formedness. -/
theorem wf_removeOldest {c : Cache K V} (hwf : WF c) : WF (removeOldest c) := by
  cases hg : c.order.getLast? with
  | none => simp only [removeOldest, hg]; exact hwf
  | some e =>
    simp only [removeOldest, hg]
    exact wf_removeElement hwf e.1

/-- Add preserves well-formedness. -/
theorem wf_Add {c : Cache K V} (hwf : WF c) (k : K) (v : V) : WF (Add k v c) := by
  cases h : findItem c k with
  | some nid =>
    simp only [Add, h]
    obtain ⟨v1, hmem, hfind⟩ := wf_elem_of_findItem hwf h
    obtain ⟨hids, hkeys, hperm, hfresh⟩ := hwf
    have hmv : (moveToFront nid c.order).Perm c.order := moveToFront_perm nid c.order
    have hksv : ∀ e ∈ moveToFront nid c.order, e.1 = nid → e.2.1 = k := by
      intro e he hei
      have he2 : e ∈ c.order := hmv.mem_iff.mp he
      have he3 : e = (nid, k, v1) := List.inj_on_of_nodup_map hids he2 hmem hei
      rw [he3]
    refine ⟨?_, ?_, ?_, ?_⟩
    · rw [setValue_map_fst]
      exact ((hmv.map (fun e => e.1)).symm).nodup hids
    · exact hkeys
    · rw [setValue_map_keyId nid k v (moveToFront nid c.order) hksv]
      exact hperm.trans ((hmv.map keyId).symm)
    · intro i hi2
      rw [setValue_map_fst] at hi2
      exact hfresh i ((hmv.map (fun e => e.1)).mem_iff.mp hi2)
  | none =>
    simp only [Add, h]
    obtain ⟨hids, hkeys, hperm, hfresh⟩ := hwf
    have hkabs : ∀ kv ∈ c.items, kv.1 ≠ k := findItem_eq_none_keys h
    have hwf1 : WF (Cache.mk c.maxEntries c.hasCallback c.closerErr
        ((c.nextId, k, v) :: c.order) ((k, c.nextId) :: c.items) (c.nextId + 1)
        c.hits c.misses c.evictions c.evLog) := by
      refine ⟨?_, ?_, ?_, ?_⟩
      · refine List.nodup_cons.mpr ⟨?_, hids⟩
        intro hc
        exact absurd (hfresh c.nextId hc) (lt_irrefl c.nextId)
      · refine List.nodup_cons.mpr ⟨?_, hkeys⟩
        intro hc
        obtain ⟨kv, hkv, hkvk⟩ := List.mem_map.mp hc
        exact hkabs kv hkv hkvk
      · exact hperm.cons (k, c.nextId)
      · intro i hi2
        cases List.mem_cons.mp hi2 with
        | inl h2 => rw [h2]; exact Nat.lt_succ_self c.nextId
        | inr h2 => exact Nat.lt_succ_of_lt (hfresh i h2)
    split
    · exact wf_removeOldest hwf1
    · exact hwf1

/-- Peek never changes the cache. -/
theorem Peek_state [Inhabited V] (k : K) (c : Cache K V) : (Peek k c).2 = c := by
  cases h : findItem c k <;> simp [Peek, h]

/-- Peek preserves well-formedness. -/
theorem wf_Peek [Inhabited V] {c : Cache K V} (hwf : WF c) (k : K) :
    WF ((Peek k c).2) := by
  rw [Peek_state]
  exact hwf

/-- Get preserves well-formedness. -/
theorem wf_Get [Inhabited V] {c : Cache K V} (hwf : WF c) (k : K) :
    WF ((Get k c).2) := by
  cases h : findItem c k with
  | some nid =>
    simp only [Get, h]
    exact wf_congr hwf (moveToFront_perm nid c.order) rfl rfl
  | none =>
    simp only [Get, h]
    exact hwf

/-- Remove preserves well-formedness. -/
theorem wf_Remove {c : Cache K V} (hwf : WF c) (k : K) : WF (Remove k c) := by
  cases h : findItem c k with
  | some nid =>
    simp only [Remove, h]
    exact wf_removeElement hwf nid
  | none =>
    simp only [Remove, h]
    exact hwf

/-- Purge leaves a well-formed cache. -/
theorem wf_Purge (c : Cache K V) : WF (Purge c) :=
  ⟨List.nodup_nil, List.nodup_nil, List.Perm.refl [],
    fun i hi => absurd hi (List.not_mem_nil i)⟩

/-- Every public operation preserves well-formedness. -/
theorem wf_applyOp [Inhabited V] {c : Cache K V} (hwf : WF c) (op : Op K V) :
    WF (applyOp c op) := by
  cases op with
  | add k v => exact wf_Add hwf k v
  | get k => exact wf_Get hwf k
  | peek k => exact wf_Peek hwf k
  | remove k => exact wf_Remove hwf k
  | purge => exact wf_Purge c
  | close => exact wf_Purge c

/-- Every sequence of public operations preserves well-formedness. -/
theorem wf_applyOps [Inhabited V] {c : Cache K V} (hwf : WF c) (ops : List (Op K V)) :
    WF (applyOps c ops) := by
  induction ops generalizing c with
  | nil => exact hwf
  | cons op t ih => exact ih (wf_applyOp hwf op)

/-- A fresh cache is well-formed. -/
theorem wf_NewWithEvict (err : Option String) (C : Nat) (b : Bool) :
    WF (NewWithEvict err C b : Cache K V) :=
  ⟨List.nodup_nil, List.nodup_nil, List.Perm.refl [],
    fun i hi => absurd hi (List.not_mem_nil i)⟩

/-- removeElement never lengthens the recency list. -/
theorem removeElement_order_length_le (nid : Nat) (c : Cache K V) :
    (removeElement nid c).order.length ≤ c.order.length := by
  cases hf : c.order.find? (fun e => decide (e.1 = nid)) with
  | none => simp only [removeElement, hf]; exact le_refl _
  | some e =>
    simp only [removeElement, hf]
    exact List.Sublist.length_le (List.eraseP_sublist c.order)

/-- removeElement shortens the recency list by one when the element is
found. -/
theorem removeElement_order_length_eq {nid : Nat} {c : Cache K V} {e : Elem K V}
    (hf : c.order.find? (fun x => decide (x.1 = nid)) = some e) :
    (removeElement nid c).order.length + 1 = c.order.length := by
  simp only [removeElement, hf]
  have hm : e ∈ c.order := List.mem_of_find?_eq_some hf
  have hp := List.find?_some hf
  rw [List.length_eraseP_of_mem hm hp]
  have h1 : 1 ≤ c.order.length := List.length_pos.mpr (List.ne_nil_of_mem hm)
  omega

/-- removeOldest shortens a non-empty recency list by one. -/
theorem removeOldest_order_length {c : Cache K V} (h : c.order ≠ []) :
    (removeOldest c).order.length + 1 = c.order.length := by
  cases hg : c.order.getLast? with
  | none => exact absurd (List.getLast?_eq_none_iff.mp hg) h
  | some e =>
    simp only [removeOldest, hg]
    have hm : e ∈ c.order := List.mem_of_mem_getLast? hg
    have hs : (c.order.find? (fun x => decide (x.1 = e.1))).isSome :=
      List.find?_isSome.mpr ⟨e, hm, by simp⟩
    obtain ⟨e2, hf⟩ := Option.isSome_iff_exists.mp hs
    exact removeElement_order_length_eq hf

/-- removeElement does not change the capacity. -/
theorem removeElement_maxEntries (nid : Nat) (c : Cache K V) :
    (removeElement nid c).maxEntries = c.maxEntries := by
  cases hf : c.order.find? (fun e => decide (e.1 = nid)) <;>
    simp [removeElement, hf]

/-- removeOldest does not change the capacity. -/
theorem removeOldest_maxEntries (c : Cache K V) :
    (removeOldest c).maxEntries = c.maxEntries := by
  cases hg : c.order.getLast? with
  | none => simp [removeOldest, hg]
  | some e =>
    simp only [removeOldest, hg]
    exact removeElement_maxEntries e.1 c

/-- No public operation changes the capacity. -/
theorem applyOp_maxEntries [Inhabited V] (c : Cache K V) (op : Op K V) :
    (applyOp c op).maxEntries = c.maxEntries := by
  cases op with
  | add k v =>
    cases h : findItem c k with
    | some nid => simp [applyOp, Add, h]
    | none =>
      simp only [applyOp, Add, h]
      split_ifs with hg
      · rw [removeOldest_maxEntries]
      · rfl
  | get k => cases h : findItem c k <;> simp [applyOp, Get, h]
  | peek k => simp [applyOp, Peek_state]
  | remove k =>
    cases h : findItem c k with
    | some nid =>
      simp only [applyOp, Remove, h]
      exact removeElement_maxEntries nid c
    | none => simp [applyOp, Remove, h]
  | purge => rfl
  | close => rfl

/-- Add keeps the recency list within a non-zero capacity. -/
theorem Add_order_length_le {c : Cache K V} (k : K) (v : V)
    (hm : c.maxEntries ≠ 0) (hb : c.order.length ≤ c.maxEntries) :
    (Add k v c).order.length ≤ c.maxEntries := by
  cases h : findItem c k with
  | some nid =>
    simp only [Add, h]
    rw [setValue_length, (moveToFront_perm nid c.order).length_eq]
    exact hb
  | none =>
    simp only [Add, h]
    split_ifs with hg
    · have hlen := removeOldest_order_length
        (c := Cache.mk c.maxEntries c.hasCallback c.closerErr
          ((c.nextId, k, v) :: c.order) ((k, c.nextId) :: c.items) (c.nextId + 1)
          c.hits c.misses c.evictions c.evLog) (List.cons_ne_nil _ _)
      simp only [List.length_cons] at hlen
      omega
    · cases not_and_or.mp hg with
      | inl h2 => exact absurd hm h2
      | inr h2 => exact Nat.le_of_not_lt h2

/-- Get does not change the length of the recency list. -/
theorem Get_order_length [Inhabited V] (k : K) (c : Cache K V) :
    ((Get k c).2).order.length = c.order.length := by
  cases h : findItem c k with
  | some nid =>
    simp only [Get, h]
    exact (moveToFront_perm nid c.order).length_eq
  | none => simp [Get, h]

/-- Remove never lengthens the recency list. -/
theorem Remove_order_length_le (k : K) (c : Cache K V) :
    (Remove k c).order.length ≤ c.order.length := by
  cases h : findItem c k with
  | some nid =>
    simp only [Remove, h]
    exact removeElement_order_length_le nid c
  | none => simp [Remove, h]

/-- Every public operation keeps the recency list within a non-zero
capacity. -/
theorem bounded_applyOp [Inhabited V] {c : Cache K V}
    (hb : c.maxEntries ≠ 0 → c.order.length ≤ c.maxEntries) (op : Op K V) :
    (applyOp c op).maxEntries ≠ 0 →
      (applyOp c op).order.length ≤ (applyOp c op).maxEntries := by
  rw [applyOp_maxEntries]
  intro hm
  cases op with
  | add k v => exact Add_order_length_le k v hm (hb hm)
  | get k =>
    rw [show (applyOp c (Op.get k)).order.length = c.order.length from
      Get_order_length k c]
    exact hb hm
  | peek k =>
    rw [show applyOp c (Op.peek k) = c from Peek_state k c]
    exact hb hm
  | remove k => exact le_trans (Remove_order_length_le k c) (hb hm)
  | purge => exact Nat.zero_le _
  | close => exact Nat.zero_le _

/-- A sequence of public operations keeps the recency list within a
non-zero capacity and never changes the capacity. -/
theorem bounded_applyOps [Inhabited V] {c : Cache K V}
    (hb : c.maxEntries ≠ 0 → c.order.length ≤ c.maxEntries) (ops : List (Op K V)) :
    (applyOps c ops).maxEntries = c.maxEntries ∧
      ((applyOps c ops).maxEntries ≠ 0 →
        (applyOps c ops).order.length ≤ (applyOps c ops).maxEntries) := by
  induction ops generalizing c with
  | nil => exact ⟨rfl, hb⟩
  | cons op t ih =>
    have h1 := bounded_applyOp hb op
    have h2 := applyOp_maxEntries c op
    have h3 := ih (c := applyOp c op) (fun hm => h1 (h2 ▸ hm))
    exact ⟨h3.1.trans h2, h3.2⟩

end LruSpec

namespace LruSpec

set_option linter.unusedSectionVars false

variable {K V : Type} [DecidableEq K]

/-- C2: for every cache constructed with capacity C > 0 and for every
finite sequence of public operations applied to it (in particular after
each Add call), the number of live entries never exceeds C. -/
theorem claim_C2_capacity_invariant [Inhabited V] (C : Nat) (hC : 0 < C)
    (err : Option String) (b : Bool) (ops : List (Op K V)) :
    (applyOps (NewWithEvict err C b) ops).order.length ≤ C := by
  have hb : (NewWithEvict err C b : Cache K V).maxEntries ≠ 0 →
      (NewWithEvict err C b : Cache K V).order.length
        ≤ (NewWithEvict err C b : Cache K V).maxEntries :=
    fun _ => Nat.zero_le _
  have h := bounded_applyOps hb ops
  have hm : (applyOps (NewWithEvict err C b : Cache K V) ops).maxEntries = C := h.1
  have h2 := h.2 (by rw [hm]; exact Nat.pos_iff_ne_zero.mp hC)
  rw [hm] at h2
  exact h2

/-- Witness for C2 at capacity 2 with three insertions. -/
theorem claim_C2_capacity_invariant_witness :
    0 < 2 ∧ (applyOps (NewWithEvict none 2 true : Cache Nat Nat)
      [Op.add 1 10, Op.add 2 20, Op.add 3 30]).order.length ≤ 2 :=
  ⟨by decide, claim_C2_capacity_invariant 2 (by decide) none true
    [Op.add 1 10, Op.add 2 20, Op.add 3 30]⟩

/-- C9: after every sequence of public operations on a fresh cache, the
key index and the recency list are in bijection: the index holds exactly
as many keys as the list has nodes, and every key in the index resolves
to a node present in the list. -/
theorem claim_C9_key_index_bijection [Inhabited V] (err : Option String)
    (C : Nat) (b : Bool) (ops : List (Op K V)) :
    (applyOps (NewWithEvict err C b) ops).items.length
        = (applyOps (NewWithEvict err C b) ops).order.length ∧
      ∀ kv ∈ (applyOps (NewWithEvict err C b) ops).items,
        ∃ v, (kv.2, kv.1, v) ∈ (applyOps (NewWithEvict err C b) ops).order := by
  obtain ⟨hids, hkeys, hperm, hfresh⟩ := wf_applyOps (wf_NewWithEvict err C b) ops
  constructor
  · rw [hperm.length_eq, List.length_map]
  · intro kv hkv
    obtain ⟨e, he, hke⟩ := List.mem_map.mp (hperm.mem_iff.mp hkv)
    obtain ⟨i, k2, v⟩ := e
    have h1 : k2 = kv.1 := congrArg Prod.fst hke
    have h2 : i = kv.2 := congrArg Prod.snd hke
    refine ⟨v, ?_⟩
    rw [← h1, ← h2]
    exact he

/-- C6: Peek returns exactly the (value, found) pair Get would return
while leaving the cache state (entry set, recency order, hit and miss
counters) untouched; consequently any number of Peek calls leaves the
state, and hence the next eviction, exactly as if they never happened. -/
theorem claim_C6_peek_frame [Inhabited V] (c : Cache K V) (k : K) (ks : List K) :
    (Peek k c).1 = (Get k c).1 ∧ (Peek k c).2 = c ∧
      applyOps c (ks.map Op.peek) = c := by
  refine ⟨?_, Peek_state k c, ?_⟩
  · cases h : findItem c k <;> simp [Peek, Get, h]
  · induction ks generalizing c with
    | nil => rfl
    | cons a t ih =>
      show applyOps (applyOp c (Op.peek a)) (t.map Op.peek) = c
      rw [show applyOp c (Op.peek a) = c from Peek_state a c]
      exact ih c

/-- C8: Close purges the cache so no entry remains, a second Close
invokes the eviction callback zero times (the invocation log does not
grow), and Close returns exactly the outcome of releasing the registered
metrics, the purge having already completed unconditionally. -/
theorem claim_C8_close_terminality (c : Cache K V) :
    (Close c).2.order = [] ∧ (Close c).2.items = [] ∧
      (Close ((Close c).2)).2.evLog = (Close c).2.evLog ∧
      (Close c).1 = c.closerErr := by
  refine ⟨rfl, rfl, ?_, rfl⟩
  show (Purge (Purge c)).evLog = (Purge c).evLog
  cases hcb : c.hasCallback <;> simp [Purge, purgeInvocations, hcb]

end LruSpec

namespace LruSpec

set_option linter.unusedSectionVars false

variable {K V : Type} [DecidableEq K]

/-- C3: overwriting an existing key updates the entry in place (the same
node identity is moved to the front carrying the new value), invokes the
eviction callback zero times, leaves the eviction counter unchanged, and
a subsequent Get returns the new value with found = true. -/
theorem claim_C3_overwrite_not_eviction [Inhabited V] {c : Cache K V} {k : K}
    {nid : Nat} (hwf : WF c) (h : findItem c k = some nid) (v2 : V) :
    (Add k v2 c).order.head? = some (nid, k, v2) ∧
      (Add k v2 c).items = c.items ∧
      (Add k v2 c).evLog = c.evLog ∧
      (Add k v2 c).evictions = c.evictions ∧
      (Get k (Add k v2 c)).1 = (v2, true) := by
  obtain ⟨v1, hmem, hfind⟩ := wf_elem_of_findItem hwf h
  have hmv : moveToFront nid c.order
      = (nid, k, v1) :: c.order.eraseP (fun x => decide (x.1 = nid)) := by
    simp only [moveToFront, hfind]
  simp only [Add, h]
  refine ⟨?_, trivial, trivial, trivial, ?_⟩
  · rw [hmv]
    simp [setValue]
  · have hfi : findItem
        (Cache.mk c.maxEntries c.hasCallback c.closerErr
          (setValue nid k v2 (moveToFront nid c.order)) c.items c.nextId
          c.hits c.misses c.evictions c.evLog) k = some nid := h
    simp only [Get, hfi]
    have hfe : (setValue nid k v2 (moveToFront nid c.order)).find?
        (fun e => decide (e.1 = nid)) = some (nid, k, v2) := by
      rw [hmv]
      simp [setValue]
    simp [findElem, hfe]

/-- Witness for C3: overwrite key 1 in a singleton cache. -/
theorem claim_C3_overwrite_not_eviction_witness :
    (WF (Add 1 10 (NewWithEvict none 2 true : Cache Nat Nat)) ∧
      findItem (Add 1 10 (NewWithEvict none 2 true : Cache Nat Nat)) 1 = some 0) ∧
      (Get 1 (Add 1 99 (Add 1 10 (NewWithEvict none 2 true : Cache Nat Nat)))).1
        = (99, true) :=
  ⟨⟨by decide, by decide⟩,
    (@claim_C3_overwrite_not_eviction Nat Nat _ _
      (Add 1 10 (NewWithEvict none 2 true)) 1 0 (by decide) (by decide) 99).2.2.2.2⟩

/-- C7: removing a present key deletes the entry, invokes the eviction
callback exactly once with the stored value and increments the eviction
counter by one; removing an absent key changes nothing. -/
theorem claim_C7_remove {c : Cache K V} (k : K) (hwf : WF c)
    (hcb : c.hasCallback = true) :
    (findItem c k = none → Remove k c = c) ∧
      (∀ nid, findItem c k = some nid →
        ∃ v, (nid, k, v) ∈ c.order ∧
          (Remove k c).evLog = c.evLog ++ [(k, v)] ∧
          (Remove k c).evictions = c.evictions + 1 ∧
          findItem (Remove k c) k = none ∧
          (Remove k c).order.length + 1 = c.order.length) := by
  constructor
  · intro h
    simp only [Remove, h]
  · intro nid h
    obtain ⟨v, hmem, hfind⟩ := wf_elem_of_findItem hwf h
    have hmemi : (k, nid) ∈ c.items := findItem_eq_some_mem h
    obtain ⟨hids, hkeys, hperm, hfresh⟩ := hwf
    have hrm : Remove k c = removeElement nid c := by simp only [Remove, h]
    refine ⟨v, hmem, ?_, ?_, ?_, ?_⟩
    · rw [hrm]
      simp [removeElement, hfind, hcb]
    · rw [hrm]
      simp [removeElement, hfind]
    · rw [hrm]
      simp only [removeElement, hfind]
      have hnone := eraseP_unique_none_left
        (item_unique_of_nodup hkeys hmemi) (List.Nodup.of_map (fun kv => kv.1) hkeys)
      unfold findItem
      rw [Option.map_eq_none']
      apply List.find?_eq_none.mpr
      intro x hx
      have := hnone x hx
      simp only at this ⊢
      rw [this]
      simp
    · rw [hrm]
      exact removeElement_order_length_eq hfind

/-- Witness for C7: remove an absent key, then a present one, in a
singleton cache. -/
theorem claim_C7_remove_witness :
    (Remove 2 (Add 1 10 (NewWithEvict none 0 true : Cache Nat Nat))
        = Add 1 10 (NewWithEvict none 0 true : Cache Nat Nat)) ∧
      (∃ v, (0, 1, v) ∈ (Add 1 10 (NewWithEvict none 0 true : Cache Nat Nat)).order ∧
        (Remove 1 (Add 1 10 (NewWithEvict none 0 true : Cache Nat Nat))).evLog
          = (Add 1 10 (NewWithEvict none 0 true : Cache Nat Nat)).evLog ++ [(1, v)] ∧
        (Remove 1 (Add 1 10 (NewWithEvict none 0 true : Cache Nat Nat))).evictions
          = (Add 1 10 (NewWithEvict none 0 true : Cache Nat Nat)).evictions + 1 ∧
        findItem (Remove 1 (Add 1 10 (NewWithEvict none 0 true : Cache Nat Nat))) 1
          = none ∧
        (Remove 1 (Add 1 10 (NewWithEvict none 0 true : Cache Nat Nat))).order.length + 1
          = (Add 1 10 (NewWithEvict none 0 true : Cache Nat Nat)).order.length) :=
  ⟨(claim_C7_remove 2 (by decide) rfl).1 (by decide),
    (claim_C7_remove 1 (by decide) rfl).2 0 (by decide)⟩

/-- filterMap by a first-component-preserving partial function that is
total on the list keeps the first components. -/
theorem filterMap_keys_of_all_some {β : Type} (f : K × Nat → Option (K × β))
    (hf : ∀ kv e, f kv = some e → e.1 = kv.1) (its : List (K × Nat))
    (hall : ∀ kv ∈ its, ∃ e, f kv = some e) :
    (its.filterMap f).map (fun e => e.1) = its.map (fun kv => kv.1) := by
  induction its with
  | nil => rfl
  | cons a t ih =>
    obtain ⟨e, he⟩ := hall a (List.mem_cons_self a t)
    rw [List.filterMap_cons_some he, List.map_cons, List.map_cons, hf a e he,
      ih (fun kv hkv => hall kv (List.mem_cons_of_mem a hkv))]

/-- In a well-formed cache, Purge invokes the callback once per key-index
entry, with exactly the keys of the index. -/
theorem purgeInvocations_keys {c : Cache K V} (hwf : WF c) :
    (purgeInvocations c).map (fun e => e.1) = c.items.map (fun kv => kv.1) := by
  obtain ⟨hids, hkeys, hperm, hfresh⟩ := hwf
  unfold purgeInvocations
  apply filterMap_keys_of_all_some
  · intro kv e he
    obtain ⟨x, hx1, hx2⟩ := Option.map_eq_some'.mp he
    rw [← hx2]
  · intro kv hkv
    obtain ⟨e, he, hke⟩ := List.mem_map.mp (hperm.mem_iff.mp hkv)
    refine ⟨(kv.1, e.2.2), ?_⟩
    unfold findElem
    have hfe : c.order.find? (fun x => decide (x.1 = kv.2)) = some e := by
      apply find?_eq_some_unique he
      · have h2 : e.1 = kv.2 := congrArg Prod.snd hke
        simp [h2]
      · intro y hy hpy
        have hy1 : y.1 = kv.2 := of_decide_eq_true hpy
        have he1 : e.1 = kv.2 := congrArg Prod.snd hke
        exact List.inj_on_of_nodup_map hids hy he (by rw [hy1, he1])
    rw [hfe]
    rfl

/-- C10: Purge invokes the eviction callback exactly once per live entry
(one invocation per key of the key index), empties the cache, and leaves
the eviction counter, hit counter and miss counter unchanged. -/
theorem claim_C10_purge_callbacks_no_counter {c : Cache K V} (hwf : WF c)
    (hcb : c.hasCallback = true) (_hne : c.items ≠ []) :
    (Purge c).evLog = c.evLog ++ purgeInvocations c ∧
      (purgeInvocations c).map (fun e => e.1) = c.items.map (fun kv => kv.1) ∧
      (Purge c).items = [] ∧ (Purge c).order = [] ∧
      (Purge c).evictions = c.evictions ∧
      (Purge c).hits = c.hits ∧ (Purge c).misses = c.misses :=
  ⟨by simp [Purge, hcb], purgeInvocations_keys hwf, rfl, rfl, rfl, rfl, rfl⟩

/-- Witness for C10: purge a two-entry cache. -/
theorem claim_C10_purge_callbacks_no_counter_witness :
    (Purge (Add 2 20 (Add 1 10 (NewWithEvict none 0 true : Cache Nat Nat)))).evLog
        = (Add 2 20 (Add 1 10 (NewWithEvict none 0 true : Cache Nat Nat))).evLog
          ++ purgeInvocations (Add 2 20 (Add 1 10 (NewWithEvict none 0 true : Cache Nat Nat))) ∧
      (purgeInvocations (Add 2 20 (Add 1 10 (NewWithEvict none 0 true : Cache Nat Nat)))).map (fun e => e.1)
        = (Add 2 20 (Add 1 10 (NewWithEvict none 0 true : Cache Nat Nat))).items.map (fun kv => kv.1) ∧
      (Purge (Add 2 20 (Add 1 10 (NewWithEvict none 0 true : Cache Nat Nat)))).items = [] ∧
      (Purge (Add 2 20 (Add 1 10 (NewWithEvict none 0 true : Cache Nat Nat)))).order = [] ∧
      (Purge (Add 2 20 (Add 1 10 (NewWithEvict none 0 true : Cache Nat Nat)))).evictions
        = (Add 2 20 (Add 1 10 (NewWithEvict none 0 true : Cache Nat Nat))).evictions ∧
      (Purge (Add 2 20 (Add 1 10 (NewWithEvict none 0 true : Cache Nat Nat)))).hits
        = (Add 2 20 (Add 1 10 (NewWithEvict none 0 true : Cache Nat Nat))).hits ∧
      (Purge (Add 2 20 (Add 1 10 (NewWithEvict none 0 true : Cache Nat Nat)))).misses
        = (Add 2 20 (Add 1 10 (NewWithEvict none 0 true : Cache Nat Nat))).misses :=
  claim_C10_purge_callbacks_no_counter (by decide) rfl (by decide)

end LruSpec

namespace LruSpec

set_option linter.unusedSectionVars false

variable {K V : Type} [DecidableEq K]

/-- C5: on a fresh cache of capacity 2 with distinct keys, the sequence
Add k1, Add k2, Get k1, Add k3 evicts exactly k2 (the Get promoted k1 to
most recently used), and k1 and k3 remain present. -/
theorem claim_C5_promotion_on_read [Inhabited V] (err : Option String)
    (k1 k2 k3 : K) (v1 v2 v3 : V) (h12 : k1 ≠ k2) (h13 : k1 ≠ k3)
    (h23 : k2 ≠ k3) :
    findItem (Add k3 v3 ((Get k1 (Add k2 v2 (Add k1 v1 (NewWithEvict err 2 true)))).2)) k2 = none ∧
      (findItem (Add k3 v3 ((Get k1 (Add k2 v2 (Add k1 v1 (NewWithEvict err 2 true)))).2)) k1).isSome ∧
      (findItem (Add k3 v3 ((Get k1 (Add k2 v2 (Add k1 v1 (NewWithEvict err 2 true)))).2)) k3).isSome ∧
      (Add k3 v3 ((Get k1 (Add k2 v2 (Add k1 v1 (NewWithEvict err 2 true)))).2)).evLog = [(k2, v2)] := by
  have e1 : Add k1 v1 (NewWithEvict err 2 true : Cache K V)
      = Cache.mk 2 true err [(0, k1, v1)] [(k1, 0)] 1 0 0 0 [] := rfl
  have e2 : Add k2 v2 (Cache.mk 2 true err [(0, k1, v1)] [(k1, 0)] 1 0 0 0 []
        : Cache K V)
      = Cache.mk 2 true err [(1, k2, v2), (0, k1, v1)] [(k2, 1), (k1, 0)]
          2 0 0 0 [] := by
    simp [Add, findItem, h12]
  have e3 : (Get k1 (Cache.mk 2 true err [(1, k2, v2), (0, k1, v1)]
        [(k2, 1), (k1, 0)] 2 0 0 0 [] : Cache K V)).2
      = Cache.mk 2 true err [(0, k1, v1), (1, k2, v2)] [(k2, 1), (k1, 0)]
          2 1 0 0 [] := by
    simp [Get, findItem, Ne.symm h12, moveToFront]
  have e4 : Add k3 v3 (Cache.mk 2 true err [(0, k1, v1), (1, k2, v2)]
        [(k2, 1), (k1, 0)] 2 1 0 0 [] : Cache K V)
      = Cache.mk 2 true err [(2, k3, v3), (0, k1, v1)] [(k3, 2), (k1, 0)]
          3 1 0 1 [(k2, v2)] := by
    simp [Add, findItem, h13, h23, removeOldest, removeElement, Ne.symm h23]
  rw [e1, e2, e3, e4]
  refine ⟨?_, ?_, ?_, rfl⟩ <;>
    simp [findItem, h12, Ne.symm h23, Ne.symm h13]

/-- Witness for C5 with keys 1, 2, 3. -/
theorem claim_C5_promotion_on_read_witness :
    ((1 : Nat) ≠ 2 ∧ (1 : Nat) ≠ 3 ∧ (2 : Nat) ≠ 3) ∧
      (findItem (Add 3 30 ((Get 1 (Add 2 20 (Add 1 10 (NewWithEvict none 2 true : Cache Nat Nat)))).2)) 2 = none ∧
        (findItem (Add 3 30 ((Get 1 (Add 2 20 (Add 1 10 (NewWithEvict none 2 true : Cache Nat Nat)))).2)) 1).isSome ∧
        (findItem (Add 3 30 ((Get 1 (Add 2 20 (Add 1 10 (NewWithEvict none 2 true : Cache Nat Nat)))).2)) 3).isSome ∧
        (Add 3 30 ((Get 1 (Add 2 20 (Add 1 10 (NewWithEvict none 2 true : Cache Nat Nat)))).2)).evLog = [(2, 20)]) :=
  ⟨⟨by decide, by decide, by decide⟩,
    claim_C5_promotion_on_read none 1 2 3 10 20 30 (by decide) (by decide)
      (by decide)⟩

end LruSpec

namespace CpuMetrics

/-- C1 counterexample: with a failing readCounters (and no BPF map
records), Collect still emits measurements for the native-unwinder
descriptor names during that cycle, contradicting the claim that it
emits nothing for that source on failure. -/
theorem claim_C1_counterexample :
    ((Collect { bpfMaps := [], readCountersResult := Except.error "read failed" }).1.filter
        (fun m => unwinderDescNames.contains m.desc))
      ≠ [] := by decide

/-- C1 (amended): when the external counter read fails, Collect completes
without propagating the failure and logs the error, but it does emit the
full native-unwinder measurement family for that cycle, using the
default zero-value statistics record, so every native-unwinder
measurement carries the value 0. -/
theorem claim_C1_amended_zero_value_emission (maps : List bpfMetrics)
    (err : String) :
    Collect { bpfMaps := maps, readCountersResult := Except.error err }
      = ((maps.map bpfMapMetricsFor).flatten ++ unwinderMetricsFor zeroStats,
        ["readPerCpuCounter failed: " ++ err]) ∧
      ∀ m ∈ unwinderMetricsFor zeroStats, m.value = 0 := by
  refine ⟨rfl, ?_⟩
  decide

end CpuMetrics

namespace LruSpec

set_option linter.unusedSectionVars false

variable {K V : Type} [DecidableEq K]

/-- Fold of Add over a list of key/value pairs, left to right. -/
def addAll (ps : List (K × V)) (c : Cache K V) : Cache K V :=
  ps.foldl (fun a p => Add p.1 p.2 a) c

/-- Characterization of addAll in the no-eviction regime: adding fresh,
pairwise-distinct keys that fit within the capacity pushes them at the
front with consecutive node identities and triggers nothing else. -/
theorem addAll_no_evict (ps : List (K × V)) (c : Cache K V)
    (hnd : (ps.map (fun p => p.1)).Nodup)
    (habs : ∀ p ∈ ps, findItem c p.1 = none)
    (hcap : c.maxEntries = 0 ∨ c.order.length + ps.length ≤ c.maxEntries) :
    addAll ps c = Cache.mk c.maxEntries c.hasCallback c.closerErr
      (((List.enumFrom c.nextId ps).map (fun ip => (ip.1, ip.2.1, ip.2.2))).reverse
        ++ c.order)
      (((List.enumFrom c.nextId ps).map (fun ip => (ip.2.1, ip.1))).reverse
        ++ c.items)
      (c.nextId + ps.length) c.hits c.misses c.evictions c.evLog := by
  induction ps generalizing c with
  | nil =>
    simp [addAll, List.enumFrom]
  | cons p t ih =>
    have hstep : addAll (p :: t) c = addAll t (Add p.1 p.2 c) := rfl
    have habsp := habs p (List.mem_cons_self p t)
    have hAdd : Add p.1 p.2 c = Cache.mk c.maxEntries c.hasCallback c.closerErr
        ((c.nextId, p.1, p.2) :: c.order) ((p.1, c.nextId) :: c.items)
        (c.nextId + 1) c.hits c.misses c.evictions c.evLog := by
      simp only [Add, habsp]
      rw [if_neg]
      rintro ⟨hm0, hgt⟩
      cases hcap with
      | inl h0 => exact hm0 h0
      | inr hle =>
        simp only [List.length_cons] at hgt hle
        omega
    have hndt : (t.map (fun p => p.1)).Nodup := (List.nodup_cons.mp hnd).2
    have hpn : p.1 ∉ t.map (fun p => p.1) := (List.nodup_cons.mp hnd).1
    have habst : ∀ q ∈ t, findItem (Cache.mk c.maxEntries c.hasCallback c.closerErr
        ((c.nextId, p.1, p.2) :: c.order) ((p.1, c.nextId) :: c.items)
        (c.nextId + 1) c.hits c.misses c.evictions c.evLog) q.1 = none := by
      intro q hq
      unfold findItem
      rw [Option.map_eq_none']
      rw [List.find?_cons_of_neg]
      · exact Option.map_eq_none'.mp (habs q (List.mem_cons_of_mem p hq))
      · have hne : p.1 ≠ q.1 := by
          intro he
          exact hpn (he ▸ List.mem_map_of_mem (fun p => p.1) hq)
        simp [hne]
    have hcapt : (Cache.mk c.maxEntries c.hasCallback c.closerErr
        ((c.nextId, p.1, p.2) :: c.order) ((p.1, c.nextId) :: c.items)
        (c.nextId + 1) c.hits c.misses c.evictions c.evLog).maxEntries = 0 ∨
        (Cache.mk c.maxEntries c.hasCallback c.closerErr
          ((c.nextId, p.1, p.2) :: c.order) ((p.1, c.nextId) :: c.items)
          (c.nextId + 1) c.hits c.misses c.evictions c.evLog).order.length + t.length
          ≤ (Cache.mk c.maxEntries c.hasCallback c.closerErr
            ((c.nextId, p.1, p.2) :: c.order) ((p.1, c.nextId) :: c.items)
            (c.nextId + 1) c.hits c.misses c.evictions c.evLog).maxEntries := by
      cases hcap with
      | inl h0 => exact Or.inl h0
      | inr hle =>
        right
        simp only [List.length_cons] at hle ⊢
        omega
    rw [hstep, hAdd, ih _ hndt habst hcapt]
    have harith : c.nextId + 1 + t.length = c.nextId + (t.length + 1) := by omega
    simp only [List.enumFrom_cons, List.map_cons, List.reverse_cons,
      List.append_assoc, List.singleton_append, List.length_cons, harith]

/-- Every member of a list appears in its enumeration from any start. -/
theorem enumFrom_mem_of_mem {α : Type} {x : α} {l : List α} (h : x ∈ l) (n : Nat) :
    ∃ i, (i, x) ∈ List.enumFrom n l := by
  induction l generalizing n with
  | nil => cases h
  | cons a t ih =>
    cases List.mem_cons.mp h with
    | inl h2 =>
      refine ⟨n, ?_⟩
      rw [h2, List.enumFrom_cons]
      exact List.mem_cons_self _ _
    | inr h2 =>
      obtain ⟨i, hi⟩ := ih h2 (n + 1)
      refine ⟨i, ?_⟩
      rw [List.enumFrom_cons]
      exact List.mem_cons_of_mem _ hi

/-- Keys of the key-index entries built from an enumeration are keys of
the enumerated list. -/
theorem keys_of_mem_enum_items {n : Nat} {mid : List (K × V)} {kv : K × Nat}
    (h : kv ∈ (List.map (fun ip => (ip.2.1, ip.1)) (List.enumFrom n mid)).reverse) :
    kv.1 ∈ mid.map (fun q => q.1) := by
  rw [List.mem_reverse] at h
  obtain ⟨ip, hip, hkv⟩ := List.mem_map.mp h
  obtain ⟨i, x⟩ := ip
  have h3 := List.mem_enumFrom hip
  have hx : x ∈ mid := by rw [h3.2.2]; exact List.getElem_mem _
  rw [← hkv]
  exact List.mem_map_of_mem (fun q => q.1) hx

/-- Node identities of the recency-list elements built from an
enumeration are at least the enumeration start. -/
theorem ids_of_mem_enum_order {n : Nat} {mid : List (K × V)} {e : Elem K V}
    (h : e ∈ (List.map (fun ip => (ip.1, ip.2.1, ip.2.2)) (List.enumFrom n mid)).reverse) :
    n ≤ e.1 := by
  rw [List.mem_reverse] at h
  obtain ⟨ip, hip, he⟩ := List.mem_map.mp h
  obtain ⟨i, x⟩ := ip
  have h3 := List.mem_enumFrom hip
  rw [← he]
  exact h3.1

/-- A key carried by some key-index entry makes findItem succeed. -/
theorem findItem_isSome_of_key_mem {c : Cache K V} {k : K}
    (h : ∃ kv ∈ c.items, kv.1 = k) : (findItem c k).isSome := by
  unfold findItem
  obtain ⟨kv, hkv, hk⟩ := h
  have hs : (c.items.find? (fun kv => decide (kv.1 = k))).isSome :=
    List.find?_isSome.mpr ⟨kv, hkv, by simp [hk]⟩
  obtain ⟨x, hx⟩ := Option.isSome_iff_exists.mp hs
  rw [hx]
  rfl

/-- C4: adding C+1 pairwise-distinct keys in order to a fresh cache of
capacity C > 0 with no intervening reads evicts exactly the first key:
it is absent afterwards and the eviction callback was invoked exactly
once, for it, while every later key remains present. -/
theorem claim_C4_recency_eviction (C : Nat) (hC : 0 < C) (err : Option String)
    (p1 : K × V) (rest : List (K × V))
    (hnd : ((p1 :: rest).map (fun q => q.1)).Nodup)
    (hlen : rest.length = C) :
    findItem (addAll (p1 :: rest) (NewWithEvict err C true)) p1.1 = none ∧
      (addAll (p1 :: rest) (NewWithEvict err C true)).evLog = [p1] ∧
      ∀ q ∈ rest, (findItem (addAll (p1 :: rest) (NewWithEvict err C true)) q.1).isSome := by
  have hC0 : C ≠ 0 := Nat.pos_iff_ne_zero.mp hC
  have hne : rest ≠ [] := by
    intro h0
    rw [h0] at hlen
    simp at hlen
    omega
  obtain ⟨mid, plast, hres⟩ : ∃ mid plast, rest = mid ++ [plast] :=
    ⟨rest.dropLast, rest.getLast hne, (List.dropLast_append_getLast hne).symm⟩
  subst hres
  have hmidlen : mid.length + 1 = C := by simpa using hlen
  have hnd' : (p1.1 :: (mid.map (fun q => q.1) ++ [plast.1])).Nodup := by
    simpa using hnd
  obtain ⟨hp1nm, hmidnd⟩ := List.nodup_cons.mp hnd'
  obtain ⟨hmidnd2, _, hdisj⟩ := List.nodup_append.mp hmidnd
  have hp1plast : p1.1 ≠ plast.1 := by
    intro he
    exact hp1nm (by rw [he]; exact List.mem_append_right _ (List.mem_singleton_self _))
  have hp1mid : p1.1 ∉ mid.map (fun q => q.1) := by
    intro hm
    exact hp1nm (List.mem_append_left _ hm)
  have hmidplast : ∀ x ∈ mid.map (fun q => q.1), x ≠ plast.1 := by
    intro x hx he
    exact hdisj hx (by rw [he]; exact List.mem_singleton_self _)
  have hnd1 : ((p1 :: mid).map (fun q => q.1)).Nodup :=
    List.nodup_cons.mpr ⟨hp1mid, hmidnd2⟩
  have hchar := addAll_no_evict (p1 :: mid) (NewWithEvict err C true) hnd1
      (fun p _ => rfl)
      (Or.inr (by simp [NewWithEvict]; omega))
  simp only [NewWithEvict, List.append_nil, Nat.zero_add, List.length_cons,
    hmidlen, List.enumFrom_cons, List.map_cons, List.reverse_cons] at hchar
  have hsplit : addAll (p1 :: (mid ++ [plast])) (NewWithEvict err C true)
      = Add plast.1 plast.2 (addAll (p1 :: mid) (NewWithEvict err C true)) := by
    show List.foldl _ _ _ = _
    rw [show (p1 :: (mid ++ [plast])) = (p1 :: mid) ++ [plast] from rfl,
      List.foldl_append]
    rfl
  rw [hsplit,
    show (NewWithEvict err C true : Cache K V)
      = Cache.mk C true err [] [] 0 0 0 0 [] from rfl, hchar]
  -- the final insertion: plast is absent from the key index
  have hfiS : findItem (Cache.mk C true err
      ((List.map (fun ip => (ip.1, ip.2.1, ip.2.2)) (List.enumFrom 1 mid)).reverse
        ++ [(0, p1.1, p1.2)])
      ((List.map (fun ip => (ip.2.1, ip.1)) (List.enumFrom 1 mid)).reverse
        ++ [(p1.1, 0)]) C 0 0 0 []) plast.1 = none := by
    unfold findItem
    rw [Option.map_eq_none']
    apply List.find?_eq_none.mpr
    intro kv hkv
    cases List.mem_append.mp hkv with
    | inl h2 =>
      have := hmidplast kv.1 (keys_of_mem_enum_items h2)
      simp [this]
    | inr h2 =>
      have h3 : kv = (p1.1, 0) := List.mem_singleton.mp h2
      rw [h3]
      simp [hp1plast]
  simp only [Add, hfiS]
  rw [if_pos]
  case hc =>
    refine ⟨hC0, ?_⟩
    simp only [List.length_cons, List.length_append, List.length_reverse,
      List.length_map, List.enumFrom_length]
    omega
  -- the oldest element is the node holding p1
  have hgl : (((C, plast.1, plast.2) ::
      ((List.map (fun ip => (ip.1, ip.2.1, ip.2.2)) (List.enumFrom 1 mid)).reverse
        ++ [(0, p1.1, p1.2)]))).getLast? = some (0, p1.1, p1.2) := by
    rw [← List.cons_append, List.getLast?_concat]
  simp only [removeOldest, hgl]
  have hpre : ∀ x ∈ (C, plast.1, plast.2) ::
      (List.map (fun ip => (ip.1, ip.2.1, ip.2.2)) (List.enumFrom 1 mid)).reverse,
      ¬((fun e => decide (e.1 = (0, p1.1, p1.2).1)) x) = true := by
    intro x hx
    cases List.mem_cons.mp hx with
    | inl h2 =>
      rw [h2]
      simp [hC0]
    | inr h2 =>
      have := ids_of_mem_enum_order h2
      simp
      omega
  have hfind : (((C, plast.1, plast.2) ::
      ((List.map (fun ip => (ip.1, ip.2.1, ip.2.2)) (List.enumFrom 1 mid)).reverse
        ++ [(0, p1.1, p1.2)])).find?
      (fun e => decide (e.1 = (0, p1.1, p1.2).1))) = some (0, p1.1, p1.2) := by
    rw [← List.cons_append, List.find?_append, List.find?_eq_none.mpr hpre]
    simp
  simp only [removeElement, hfind]
  have herord : (((C, plast.1, plast.2) ::
      ((List.map (fun ip => (ip.1, ip.2.1, ip.2.2)) (List.enumFrom 1 mid)).reverse
        ++ [(0, p1.1, p1.2)])).eraseP
      (fun x => decide (x.1 = (0, p1.1, p1.2).1)))
      = (C, plast.1, plast.2) ::
        (List.map (fun ip => (ip.1, ip.2.1, ip.2.2)) (List.enumFrom 1 mid)).reverse := by
    rw [← List.cons_append, List.eraseP_append_right _ hpre]
    simp
  have herit : (((plast.1, C) ::
      ((List.map (fun ip => (ip.2.1, ip.1)) (List.enumFrom 1 mid)).reverse
        ++ [(p1.1, 0)])).eraseP
      (fun kv => decide (kv.1 = (0, p1.1, p1.2).2.1)))
      = (plast.1, C) ::
        (List.map (fun ip => (ip.2.1, ip.1)) (List.enumFrom 1 mid)).reverse := by
    rw [← List.cons_append, List.eraseP_append_right]
    · simp
    · intro kv hkv
      cases List.mem_cons.mp hkv with
      | inl h2 =>
        rw [h2]
        simp [Ne.symm hp1plast]
      | inr h2 =>
        have hkey := keys_of_mem_enum_items h2
        have : kv.1 ≠ p1.1 := by
          intro he
          exact hp1mid (he ▸ hkey)
        simp [this]
  rw [herord, herit]
  refine ⟨?_, ?_, ?_⟩
  · unfold findItem
    rw [Option.map_eq_none']
    apply List.find?_eq_none.mpr
    intro kv hkv
    cases List.mem_cons.mp hkv with
    | inl h2 =>
      rw [h2]
      simp [Ne.symm hp1plast]
    | inr h2 =>
      have hkey := keys_of_mem_enum_items h2
      have : kv.1 ≠ p1.1 := by
        intro he
        exact hp1mid (he ▸ hkey)
      simp [this]
  · simp
  · intro q hq
    cases List.mem_append.mp hq with
    | inl h2 =>
      obtain ⟨i, hi⟩ := enumFrom_mem_of_mem h2 1
      apply findItem_isSome_of_key_mem
      refine ⟨(q.1, i), ?_, rfl⟩
      apply List.mem_cons_of_mem
      exact List.mem_reverse.mpr (List.mem_map_of_mem (fun ip => (ip.2.1, ip.1)) hi)
    | inr h2 =>
      have h3 : q = plast := List.mem_singleton.mp h2
      rw [h3]
      apply findItem_isSome_of_key_mem
      exact ⟨(plast.1, C), List.mem_cons_self _ _, rfl⟩

/-- Witness for C4 at capacity 1 with keys 1 and 2. -/
theorem claim_C4_recency_eviction_witness :
    (0 < 1 ∧
      ((((1, 10) : Nat × Nat) :: [(2, 20)]).map (fun q => q.1)).Nodup ∧
      ([((2 : Nat), (20 : Nat))].length = 1)) ∧
      (findItem (addAll (((1, 10) : Nat × Nat) :: [(2, 20)])
          (NewWithEvict none 1 true)) 1 = none ∧
        (addAll (((1, 10) : Nat × Nat) :: [(2, 20)])
          (NewWithEvict none 1 true)).evLog = [(1, 10)] ∧
        ∀ q ∈ [((2 : Nat), (20 : Nat))],
          (findItem (addAll (((1, 10) : Nat × Nat) :: [(2, 20)])
            (NewWithEvict none 1 true)) q.1).isSome) :=
  ⟨⟨by decide, by decide, by decide⟩,
    claim_C4_recency_eviction 1 (by decide) none (1, 10) [(2, 20)]
      (by decide) (by decide)⟩

end LruSpec
